import Mathlib

/-!
Verification of the Bloom-filter module `bloom.py`.

The module is embedded shallowly:

* Items are byte strings, modelled as `List Nat` (one entry per byte).
* The SHA-1 primitive from `hashlib` is external to the repository, so the
  digest is a parameter `sha1 : List Nat → List Nat` of every definition
  that needs it; `h.update(salt); h.update(value)` digests the
  concatenation of the salt bytes and the value bytes.
* The `numpy` `uint32` array `bits` is a `List Nat`; the hash range
  invariant keeps every word below `2 ^ 32` because only bits `0..31` are
  ever OR'd in.
* Out-of-range indexing, which would raise `IndexError` at run time, is
  modelled by `Option`: an operation returns `none` exactly when the
  Python code would raise.
* The float arithmetic of `fprate` and `optimalBloom` is idealised over
  `ℝ`; `numpy`'s non-finite results (`inf`/`nan` from `N.log` on
  non-positive input), which make the subsequent `int(...)` conversion
  raise, are modelled by `Option` at the log itself.
-/

/-- Byte string of a Lean `String` (code points; ASCII for the digit
strings produced by `str(salt)`). -/
def strBytes (s : String) : List Nat :=
  s.data.map Char.toNat

/-- The digest-folding loop of `makeHashFunc`:
`for b in digest: v = (v + ord(b) * scale) % m; scale *= 8`. -/
def digestFold (m : Nat) : List Nat → Nat → Nat → Nat
  | [], v, _ => v
  | b :: rest, v, scale => digestFold m rest ((v + b * scale) % m) (scale * 8)

/-- Function `makeHashFunc(m, salt)` from `bloom.py`: returns the function that
digests `str(salt)` followed by the value and folds the digest modulo
`m`.  The SHA-1 primitive is the parameter `sha1`. -/
def makeHashFunc (sha1 : List Nat → List Nat) (m : Nat) (salt : Nat) :
    List Nat → Nat :=
  fun value => digestFold m (sha1 (strBytes (toString salt) ++ value)) 0 1

/-- The state of a `BloomFilter` object: capacity `m` (bits), hash count
`k`, add counter `n`, the word array `bits` and the hash functions
`funcs`. -/
structure BloomFilter where
  m : Nat
  k : Nat
  n : Nat
  bits : List Nat
  funcs : List (List Nat → Nat)

/-- Constructor `BloomFilter.__init__`: requires `m > 0`, `k > 0` (the `assert`
statements) and `m % 32 == 0` (else `ValueError`); failure of any of the
three is modelled as `none`.  On success: `m/32` zeroed words and hash
functions with salts `0..k-1`. -/
def BloomFilter.init (sha1 : List Nat → List Nat) (m k : Int) :
    Option BloomFilter :=
  if 0 < m ∧ 0 < k ∧ m % 32 = 0 then
    some { m := m.toNat, k := k.toNat, n := 0,
           bits := List.replicate (m.toNat / 32) 0,
           funcs := (List.range k.toNat).map
             (fun i => makeHashFunc sha1 m.toNat i) }
  else none

/-- One bit-setting step of `add`: `self.bits[dword] |= (1 << bit)` with
`dword = n // 32`, `bit = n % 32`; `none` models `IndexError`. -/
def setIdx (bits : List Nat) (idx : Nat) : Option (List Nat) :=
  if h : idx / 32 < bits.length then
    some (bits.set (idx / 32) ((bits.get ⟨idx / 32, h⟩) ||| (1 <<< (idx % 32))))
  else none

/-- One bit-testing step of `maycontain`:
`self.bits[dword] & (1 << bit)`, returning whether the bit is set;
`none` models `IndexError`. -/
def testIdx (bits : List Nat) (idx : Nat) : Option Bool :=
  if idx / 32 < bits.length then
    some (decide ((bits.getD (idx / 32) 0) &&& (1 <<< (idx % 32)) ≠ 0))
  else none

/-- The loop of `add`: one `setIdx` per hash function. -/
def addLoop (item : List Nat) : List (List Nat → Nat) → List Nat →
    Option (List Nat)
  | [], bits => some bits
  | f :: fs, bits =>
    match setIdx bits (f item) with
    | some bits2 => addLoop item fs bits2
    | none => none

/-- Method `BloomFilter.add`: set the `k` bits, then `self.n += 1`. -/
def BloomFilter.add (F : BloomFilter) (item : List Nat) :
    Option BloomFilter :=
  (addLoop item F.funcs F.bits).map fun bits2 =>
    { F with bits := bits2, n := F.n + 1 }

/-- The loop of `maycontain`: return `false` at the first unset bit,
`true` if all `k` bits are set. -/
def mayLoop (item : List Nat) (bits : List Nat) :
    List (List Nat → Nat) → Option Bool
  | [] => some true
  | f :: fs =>
    match testIdx bits (f item) with
    | some true => mayLoop item bits fs
    | some false => some false
    | none => none

/-- Method `BloomFilter.maycontain`. -/
def BloomFilter.maycontain (F : BloomFilter) (item : List Nat) :
    Option Bool :=
  mayLoop item F.bits F.funcs

/-- Method `BloomFilter.clear`: `self.bits.fill(0)` — note the source touches
only `bits`. -/
def BloomFilter.clear (F : BloomFilter) : BloomFilter :=
  { F with bits := List.replicate F.bits.length 0 }

/-- Method `BloomFilter.fprate`: `(1 - exp(-k * n / m)) ** k`, idealised over
`ℝ`. -/
noncomputable def BloomFilter.fprate (F : BloomFilter) : ℝ :=
  (1 - Real.exp (-(F.k : ℝ) * (F.n : ℝ) / (F.m : ℝ))) ^ F.k

/-- Method `BloomFilter.__getstate__`: the pickled state `(k, n, bits)`. -/
def BloomFilter.getstate (F : BloomFilter) : Nat × Nat × List Nat :=
  (F.k, F.n, F.bits)

/-- Method `BloomFilter.__setstate__`: restore `(k, n, bits)`, recompute
`m = bits.size * 32` and regenerate the hash functions. -/
def BloomFilter.setstate (sha1 : List Nat → List Nat)
    (st : Nat × Nat × List Nat) : BloomFilter :=
  { k := st.1, n := st.2.1, bits := st.2.2,
    m := st.2.2.length * 32,
    funcs := (List.range st.1).map
      (fun i => makeHashFunc sha1 (st.2.2.length * 32) i) }

/-- An operation a caller can drive the filter with. -/
inductive Op where
  | add (item : List Nat)
  | query (item : List Nat)
  | clear

/-- Run a sequence of operations; `query` does not change the state, a
raised error anywhere aborts the run (`none`). -/
def runOps : BloomFilter → List Op → Option BloomFilter
  | F, [] => some F
  | F, Op.add x :: rest =>
    match F.add x with
    | some F2 => runOps F2 rest
    | none => none
  | F, Op.query x :: rest =>
    match F.maycontain x with
    | some _ => runOps F rest
    | none => none
  | F, Op.clear :: rest => runOps F.clear rest

/-- The validity invariant established by the constructor: positive
capacity, word-aligned storage of the right length, and every hash
function lands in `[0, m)`. -/
def Valid (F : BloomFilter) : Prop :=
  0 < F.m ∧ F.bits.length * 32 = F.m ∧
    ∀ f ∈ F.funcs, ∀ item, f item < F.m

/-- The shape invariant used by serialisation: storage length matches
`m` and the function table is exactly the salted family `0..k-1` over
`m`. -/
def WellFormed (sha1 : List Nat → List Nat) (F : BloomFilter) : Prop :=
  F.bits.length * 32 = F.m ∧
    F.funcs = (List.range F.k).map (fun i => makeHashFunc sha1 F.m i)

/-- Python's `int(...)` on a float: truncation toward zero. -/
noncomputable def truncInt (x : ℝ) : Int :=
  if 0 ≤ x then Int.floor x else Int.ceil x

/-- Model of `N.log`, with `numpy`'s non-finite results on non-positive input
(`-inf` at `0`, `nan` below) modelled as `none`: every such value makes
the later `int(N.ceil ...)` / `int(k)` conversion of `optimalBloom`
raise, so the call fails either way. -/
noncomputable def nplog (x : ℝ) : Option ℝ :=
  if 0 < x then some (Real.log x) else none

/-- Function `optimalBloom(fprate, nexpected)` from `bloom.py`.  `~0x1F` is the
integer `-32`, so the alignment step `(m + 31) & ~0x1F` is
`Int.land (m + 31) (-32)`. -/
noncomputable def optimalBloom (sha1 : List Nat → List Nat) (fpr : ℝ)
    (nexpected : Int) : Option BloomFilter :=
  match nplog fpr with
  | none => none
  | some lp =>
    let m0 : ℝ := -(nexpected : ℝ) * lp / (Real.log 2) ^ 2
    let m1 : Int := Int.ceil m0
    let m : Int := Int.land (m1 + 31) (-32)
    let kr : ℝ := Real.log 2 * (m : ℝ) / (nexpected : ℝ)
    let k : Int := max (truncInt kr) 1
    BloomFilter.init sha1 m k

/-- A concrete stand-in digest used to exercise the definitions on
closed inputs. -/
def sha1demo : List Nat → List Nat := fun _ => [1, 2, 3]

/-- A family of concrete one-word filters over `sha1demo` (the fields
are `m`, `k`, `n`, `bits`, `funcs`), used to evaluate the claims on
closed inputs.  `makeHashFunc sha1demo 32 0` maps every item to 17. -/
def demoF (nv w : Nat) : BloomFilter :=
  ⟨32, 1, nv, [w], [makeHashFunc sha1demo 32 0]⟩

/-! ### Basic lemmas about the embedded operations -/

theorem digestFold_lt (m : Nat) (hm : 0 < m) :
    ∀ (ds : List Nat) (v scale : Nat), v < m → digestFold m ds v scale < m
  | [], _, _, hv => hv
  | b :: rest, v, scale, _ =>
    digestFold_lt m hm rest ((v + b * scale) % m) (scale * 8)
      (Nat.mod_lt _ hm)

theorem makeHashFunc_lt (sha1 : List Nat → List Nat) (m salt : Nat)
    (hm : 0 < m) (value : List Nat) : makeHashFunc sha1 m salt value < m :=
  digestFold_lt m hm _ 0 1 hm

theorem digestFold_eq_foldl (m : Nat) :
    ∀ (ds : List Nat) (v scale : Nat),
      digestFold m ds v scale =
        (ds.foldl (fun p b => ((p.1 + b * p.2) % m, p.2 * 8)) (v, scale)).1
  | [], _, _ => rfl
  | b :: rest, v, scale =>
    digestFold_eq_foldl m rest ((v + b * scale) % m) (scale * 8)

theorem getD_set (bits : List Nat) (i j a : Nat) :
    (bits.set i a).getD j 0 =
      if i = j ∧ i < bits.length then a else bits.getD j 0 := by
  rw [List.getD_eq_getElem?_getD, List.getD_eq_getElem?_getD,
    List.getElem?_set]
  by_cases h1 : i = j
  · subst h1
    by_cases h2 : i < bits.length
    · simp [h2]
    · simp [h2, List.getElem?_eq_none (by omega : bits.length ≤ i)]
  · simp [h1]

theorem testBit_set_ne_zero_iff (x : Nat) (b : Nat) :
    x &&& (1 <<< b) ≠ 0 ↔ x.testBit b = true := by
  have h2 : (2 : Nat) ^ b ≠ 0 := pow_ne_zero b (by norm_num)
  rw [Nat.one_shiftLeft, Nat.and_two_pow]
  cases hx : x.testBit b
  · simp [hx]
  · simp [hx, h2]

/-! ### `setIdx` -/

theorem setIdx_length {bits bits2 : List Nat} {idx : Nat}
    (h : setIdx bits idx = some bits2) : bits2.length = bits.length := by
  unfold setIdx at h
  split at h
  · cases h; simp
  · cases h

theorem setIdx_mono {bits bits2 : List Nat} {idx : Nat}
    (h : setIdx bits idx = some bits2) (w b : Nat)
    (hset : (bits.getD w 0).testBit b = true) :
    (bits2.getD w 0).testBit b = true := by
  unfold setIdx at h
  split at h
  case isTrue hlt =>
    cases h
    rw [getD_set]
    split
    case isTrue heq =>
      obtain ⟨rfl, -⟩ := heq
      rw [List.getD_eq_getElem?_getD, List.getElem?_eq_getElem hlt] at hset
      simp only [Option.getD_some] at hset
      simp [Nat.testBit_or, List.get_eq_getElem, hset]
    case isFalse => exact hset
  · cases h

theorem setIdx_sets {bits bits2 : List Nat} {idx : Nat}
    (h : setIdx bits idx = some bits2) :
    (bits2.getD (idx / 32) 0).testBit (idx % 32) = true := by
  unfold setIdx at h
  split at h
  case isTrue hlt =>
    cases h
    rw [getD_set, if_pos ⟨rfl, hlt⟩]
    rw [Nat.testBit_or, Nat.one_shiftLeft, Nat.testBit_two_pow_self]
    simp
  · cases h

theorem setIdx_isSome {bits : List Nat} {idx : Nat}
    (h : idx / 32 < bits.length) : ∃ bits2, setIdx bits idx = some bits2 := by
  unfold setIdx
  rw [dif_pos h]
  exact ⟨_, rfl⟩

/-! ### `addLoop` and `mayLoop` -/

theorem addLoop_length {item : List Nat} :
    ∀ {fs : List (List Nat → Nat)} {bits bits2 : List Nat},
      addLoop item fs bits = some bits2 → bits2.length = bits.length := by
  intro fs
  induction fs with
  | nil => intro bits bits2 h; cases h; rfl
  | cons f fs ih =>
    intro bits bits2 h
    unfold addLoop at h
    cases hs : setIdx bits (f item) with
    | none => rw [hs] at h; cases h
    | some bitsm =>
      rw [hs] at h
      rw [ih h, setIdx_length hs]

theorem addLoop_mono {item : List Nat} :
    ∀ {fs : List (List Nat → Nat)} {bits bits2 : List Nat},
      addLoop item fs bits = some bits2 →
      ∀ w b, (bits.getD w 0).testBit b = true →
        (bits2.getD w 0).testBit b = true := by
  intro fs
  induction fs with
  | nil => intro bits bits2 h w b hset; cases h; exact hset
  | cons f fs ih =>
    intro bits bits2 h w b hset
    unfold addLoop at h
    cases hs : setIdx bits (f item) with
    | none => rw [hs] at h; cases h
    | some bitsm =>
      rw [hs] at h
      exact ih h w b (setIdx_mono hs w b hset)

theorem addLoop_sets {item : List Nat} :
    ∀ {fs : List (List Nat → Nat)} {bits bits2 : List Nat},
      addLoop item fs bits = some bits2 →
      ∀ f ∈ fs,
        (bits2.getD (f item / 32) 0).testBit (f item % 32) = true := by
  intro fs
  induction fs with
  | nil => intro bits bits2 _ f hf; cases hf
  | cons g fs ih =>
    intro bits bits2 h f hf
    unfold addLoop at h
    cases hs : setIdx bits (g item) with
    | none => rw [hs] at h; cases h
    | some bitsm =>
      rw [hs] at h
      rcases List.mem_cons.mp hf with rfl | hmem
      · exact addLoop_mono h _ _ (setIdx_sets hs)
      · exact ih h f hmem

theorem addLoop_isSome {item : List Nat} :
    ∀ {fs : List (List Nat → Nat)} {bits : List Nat},
      (∀ f ∈ fs, f item / 32 < bits.length) →
      ∃ bits2, addLoop item fs bits = some bits2 := by
  intro fs
  induction fs with
  | nil => intro bits _; exact ⟨bits, rfl⟩
  | cons f fs ih =>
    intro bits hlt
    obtain ⟨bitsm, hs⟩ := setIdx_isSome (hlt f (List.mem_cons_self f fs))
    obtain ⟨bits2, h2⟩ := ih (fun g hg => by
      rw [setIdx_length hs]; exact hlt g (List.mem_cons_of_mem f hg))
    exact ⟨bits2, by unfold addLoop; rw [hs]; exact h2⟩

theorem mayLoop_isSome {item bits : List Nat} :
    ∀ {fs : List (List Nat → Nat)},
      (∀ f ∈ fs, f item / 32 < bits.length) →
      ∃ b, mayLoop item bits fs = some b := by
  intro fs
  induction fs with
  | nil => intro _; exact ⟨true, rfl⟩
  | cons f fs ih =>
    intro hlt
    have hf := hlt f (List.mem_cons_self f fs)
    obtain ⟨b, hb⟩ := ih (fun g hg => hlt g (List.mem_cons_of_mem f hg))
    unfold mayLoop testIdx
    rw [if_pos hf]
    rcases Decidable.em
        ((bits.getD (f item / 32) 0) &&& (1 <<< (f item % 32)) ≠ 0) with
      hP | hP
    · rw [decide_eq_true hP]
      exact ⟨b, hb⟩
    · rw [decide_eq_false hP]
      exact ⟨false, rfl⟩

theorem mayLoop_true {item bits : List Nat} :
    ∀ {fs : List (List Nat → Nat)},
      (∀ f ∈ fs, f item / 32 < bits.length ∧
        (bits.getD (f item / 32) 0).testBit (f item % 32) = true) →
      mayLoop item bits fs = some true := by
  intro fs
  induction fs with
  | nil => intro _; rfl
  | cons f fs ih =>
    intro hset
    obtain ⟨hlt, hbit⟩ := hset f (List.mem_cons_self f fs)
    have hne : (bits.getD (f item / 32) 0) &&& (1 <<< (f item % 32)) ≠ 0 :=
      (testBit_set_ne_zero_iff _ _).mpr hbit
    unfold mayLoop testIdx
    rw [if_pos hlt, decide_eq_true hne]
    exact ih (fun g hg => hset g (List.mem_cons_of_mem f hg))

/-! ### `add`, `runOps` and the constructor invariants -/

theorem add_spec {F F2 : BloomFilter} {item : List Nat}
    (h : F.add item = some F2) :
    ∃ bits2, addLoop item F.funcs F.bits = some bits2 ∧
      F2 = { F with bits := bits2, n := F.n + 1 } := by
  unfold BloomFilter.add at h
  cases hal : addLoop item F.funcs F.bits with
  | none => rw [hal] at h; cases h
  | some bits2 =>
    rw [hal] at h
    cases h
    exact ⟨bits2, rfl, rfl⟩

theorem funcs_div_lt {F : BloomFilter} (hV : Valid F) (item : List Nat) :
    ∀ f ∈ F.funcs, f item / 32 < F.bits.length := by
  obtain ⟨hm, hlen, hfun⟩ := hV
  intro f hf
  have h1 : f item < F.bits.length * 32 := by
    rw [hlen]
    exact hfun f hf item
  omega

theorem add_isSome {F : BloomFilter} (hV : Valid F) (item : List Nat) :
    ∃ F2, F.add item = some F2 := by
  obtain ⟨bits2, hal⟩ := addLoop_isSome (funcs_div_lt hV item)
  exact ⟨_, by unfold BloomFilter.add; rw [hal]; rfl⟩

theorem maycontain_isSome {F : BloomFilter} (hV : Valid F)
    (item : List Nat) : ∃ b, F.maycontain item = some b :=
  mayLoop_isSome (funcs_div_lt hV item)

theorem runOps_shape :
    ∀ {ops : List Op} {F F2 : BloomFilter}, runOps F ops = some F2 →
      F2.funcs = F.funcs ∧ F2.m = F.m ∧ F2.k = F.k ∧
        F2.bits.length = F.bits.length := by
  intro ops
  induction ops with
  | nil => intro F F2 h; cases h; exact ⟨rfl, rfl, rfl, rfl⟩
  | cons op rest ih =>
    intro F F2 h
    cases op with
    | add x =>
      unfold runOps at h
      cases ha : F.add x with
      | none => rw [ha] at h; cases h
      | some Fm =>
        rw [ha] at h
        obtain ⟨bits2, hal, rfl⟩ := add_spec ha
        obtain ⟨h1, h2, h3, h4⟩ := ih h
        exact ⟨h1, h2, h3, by rw [h4]; exact addLoop_length hal⟩
    | query x =>
      unfold runOps at h
      cases hq : F.maycontain x with
      | none => rw [hq] at h; cases h
      | some b => rw [hq] at h; exact ih h
    | clear =>
      unfold runOps at h
      obtain ⟨h1, h2, h3, h4⟩ := ih h
      refine ⟨h1, h2, h3, ?_⟩
      rw [h4]
      simp [BloomFilter.clear]

theorem runOps_valid {ops : List Op} {F F2 : BloomFilter} (hV : Valid F)
    (h : runOps F ops = some F2) : Valid F2 := by
  obtain ⟨hfun, hm, hk, hlen⟩ := runOps_shape h
  obtain ⟨h1, h2, h3⟩ := hV
  exact ⟨by rw [hm]; exact h1, by rw [hlen, hm]; exact h2,
    by rw [hfun, hm]; exact h3⟩

theorem runOps_mono :
    ∀ {ops : List Op} {F F2 : BloomFilter}, Op.clear ∉ ops →
      runOps F ops = some F2 →
      ∀ w b, (F.bits.getD w 0).testBit b = true →
        (F2.bits.getD w 0).testBit b = true := by
  intro ops
  induction ops with
  | nil => intro F F2 _ h w b hset; cases h; exact hset
  | cons op rest ih =>
    intro F F2 hnc h w b hset
    have hnc1 : op ≠ Op.clear := fun he => hnc (by rw [he]; exact List.mem_cons_self _ _)
    have hnc2 : Op.clear ∉ rest := fun he => hnc (List.mem_cons_of_mem _ he)
    cases op with
    | add x =>
      unfold runOps at h
      cases ha : F.add x with
      | none => rw [ha] at h; cases h
      | some Fm =>
        rw [ha] at h
        obtain ⟨bits2, hal, rfl⟩ := add_spec ha
        exact ih hnc2 h w b (addLoop_mono hal w b hset)
    | query x =>
      unfold runOps at h
      cases hq : F.maycontain x with
      | none => rw [hq] at h; cases h
      | some bq => rw [hq] at h; exact ih hnc2 h w b hset
    | clear => exact absurd rfl hnc1

theorem init_valid {sha1 : List Nat → List Nat} {m k : Int}
    {F : BloomFilter} (h : BloomFilter.init sha1 m k = some F) :
    Valid F := by
  unfold BloomFilter.init at h
  split at h
  case isTrue hc =>
    obtain ⟨hm, hk, hmod⟩ := hc
    cases h
    refine ⟨?_, ?_, ?_⟩
    · show 0 < m.toNat
      omega
    · show (List.replicate (m.toNat / 32) 0).length * 32 = m.toNat
      rw [List.length_replicate]
      omega
    · intro f hf item
      simp only [List.mem_map] at hf
      obtain ⟨i, -, rfl⟩ := hf
      exact makeHashFunc_lt sha1 _ i (by omega) item
  · cases h

theorem init_wf {sha1 : List Nat → List Nat} {m k : Int}
    {F : BloomFilter} (h : BloomFilter.init sha1 m k = some F) :
    WellFormed sha1 F := by
  unfold BloomFilter.init at h
  split at h
  case isTrue hc =>
    obtain ⟨hm, hk, hmod⟩ := hc
    cases h
    constructor
    · show (List.replicate (m.toNat / 32) 0).length * 32 = m.toNat
      rw [List.length_replicate]
      omega
    · rfl
  · cases h

theorem clear_valid {F : BloomFilter} (hV : Valid F) : Valid F.clear := by
  obtain ⟨h1, h2, h3⟩ := hV
  refine ⟨h1, ?_, h3⟩
  show (List.replicate F.bits.length 0).length * 32 = F.m
  rw [List.length_replicate]
  exact h2

theorem runOps_cons_add (F : BloomFilter) (x : List Nat) (rest : List Op) :
    runOps F (Op.add x :: rest) =
      match F.add x with
      | some F2 => runOps F2 rest
      | none => none := rfl

theorem runOps_cons_query (F : BloomFilter) (x : List Nat)
    (rest : List Op) :
    runOps F (Op.query x :: rest) =
      match F.maycontain x with
      | some _ => runOps F rest
      | none => none := rfl

theorem runOps_append (as : List Op) :
    ∀ (F : BloomFilter) (bs : List Op),
      runOps F (as ++ bs) = (runOps F as).bind (fun G => runOps G bs) := by
  induction as with
  | nil => intro F bs; rfl
  | cons op rest ih =>
    intro F bs
    cases op with
    | add x =>
      rw [List.cons_append, runOps_cons_add, runOps_cons_add]
      cases ha : F.add x with
      | none => rfl
      | some F2 => exact ih F2 bs
    | query x =>
      rw [List.cons_append, runOps_cons_query, runOps_cons_query]
      cases hq : F.maycontain x with
      | none => rfl
      | some b => exact ih F bs
    | clear => exact ih F.clear bs

/-! ### Claims -/

/-- Claim C2, counterexample: starting from `BloomFilter(32, 1)` and one
`add`, `clear()` zeroes the bit words but leaves `n = 1`; the code never
resets `n`, contradicting the claim that `clear` resets `n` to 0. -/
theorem C2_counterexample :
    ((BloomFilter.init sha1demo 32 1).bind (fun F => F.add [5])).map
      (fun F => (F.clear.n, F.clear.bits)) = some (1, [0]) := rfl

/-- Claim C2 (amended): for every filter state, `clear()` zeroes every
word of `bits` (keeping its length), and leaves `n`, `m`, `k` and
`funcs` unchanged — in particular `n` is NOT reset. -/
theorem C2_clear_state (F : BloomFilter) :
    F.clear.bits.length = F.bits.length ∧
    (∀ w, w < F.clear.bits.length → F.clear.bits.getD w 0 = 0) ∧
    F.clear.n = F.n ∧ F.clear.m = F.m ∧ F.clear.k = F.k ∧
    F.clear.funcs = F.funcs := by
  refine ⟨?_, ?_, rfl, rfl, rfl, rfl⟩
  · show (List.replicate F.bits.length 0).length = F.bits.length
    exact List.length_replicate _ _
  · intro w hw
    show (List.replicate F.bits.length 0).getD w 0 = 0
    rw [List.getD_eq_getElem?_getD, List.getElem?_replicate]
    split <;> rfl

/-- Claim C2 (amended) at a concrete filter. -/
theorem C2_clear_state_witness :
    (({ m := 32, k := 1, n := 1, bits := [131072],
        funcs := [makeHashFunc sha1demo 32 0] } :
          BloomFilter).clear).n = 1 ∧
    (({ m := 32, k := 1, n := 1, bits := [131072],
        funcs := [makeHashFunc sha1demo 32 0] } :
          BloomFilter).clear).bits.getD 0 0 = 0 :=
  ⟨(C2_clear_state _).2.2.1, (C2_clear_state _).2.1 0 (by decide)⟩

/-- Claim C3: for positive `m`, the function built by `makeHashFunc`
digests the salt string followed by the input and folds the digest by
`v = (v + b * scale) % m`, `scale = scale * 8` starting from
`v = 0, scale = 1`; the result is below `m`. -/
theorem C3_makeHash (sha1 : List Nat → List Nat) (m salt : Nat)
    (value : List Nat) (hm : 0 < m) :
    makeHashFunc sha1 m salt value =
      ((sha1 (strBytes (toString salt) ++ value)).foldl
        (fun p b => ((p.1 + b * p.2) % m, p.2 * 8)) (0, 1)).1 ∧
    makeHashFunc sha1 m salt value < m :=
  ⟨digestFold_eq_foldl m _ 0 1, makeHashFunc_lt sha1 m salt hm value⟩

/-- Claim C3 at a concrete input. -/
theorem C3_makeHash_witness :
    0 < 32 ∧
    (makeHashFunc sha1demo 32 0 [4, 5] =
      ((sha1demo (strBytes (toString 0) ++ [4, 5])).foldl
        (fun p b => ((p.1 + b * p.2) % 32, p.2 * 8)) (0, 1)).1 ∧
    makeHashFunc sha1demo 32 0 [4, 5] < 32) :=
  ⟨by decide, C3_makeHash sha1demo 32 0 [4, 5] (by decide)⟩

/-- Claim C1: for a validly constructed filter, once `add x` has been
performed, `maycontain x` answers `true` after any further operations,
provided `clear` is not called between the `add` and the query; the
operations before the `add` are unrestricted. -/
theorem C1_no_false_negatives (F F2 : BloomFilter) (x : List Nat)
    (ops1 ops2 : List Op) (hV : Valid F) (hnc : Op.clear ∉ ops2)
    (h : runOps F (ops1 ++ Op.add x :: ops2) = some F2) :
    F2.maycontain x = some true := by
  rw [runOps_append] at h
  cases h1 : runOps F ops1 with
  | none => rw [h1] at h; cases h
  | some F1 =>
    rw [h1] at h
    have hV1 : Valid F1 := runOps_valid hV h1
    rw [Option.some_bind, runOps_cons_add] at h
    cases ha : F1.add x with
    | none => rw [ha] at h; cases h
    | some Fm =>
      rw [ha] at h
      have hVm : Valid Fm := runOps_valid hV1
        (show runOps F1 [Op.add x] = some Fm by
          rw [runOps_cons_add, ha]
          rfl)
      obtain ⟨bits2, hal, rfl⟩ := add_spec ha
      have hsets := addLoop_sets hal
      have hmono := runOps_mono hnc h
      obtain ⟨hfuncs2, -, -, -⟩ := runOps_shape h
      have hV2 : Valid F2 := runOps_valid hVm h
      unfold BloomFilter.maycontain
      apply mayLoop_true
      intro f hf
      have hfF1 : f ∈ F1.funcs := by
        rw [hfuncs2] at hf
        exact hf
      exact ⟨funcs_div_lt hV2 x f hf, hmono _ _ (hsets f hfF1)⟩

theorem demoF_valid (nv w : Nat) : Valid (demoF nv w) := by
  refine ⟨show 0 < 32 by decide, show 1 * 32 = 32 by decide, ?_⟩
  intro f hf item
  rcases List.mem_singleton.mp hf with rfl
  exact makeHashFunc_lt sha1demo 32 0 (by decide) item

/-- Claim C1 at a concrete run: add `[5]`, add `[7]`, add `[9]`, then
query `[7]`. -/
theorem C1_no_false_negatives_witness :
    Valid (demoF 0 0) ∧ Op.clear ∉ [Op.add [9]] ∧
    (demoF 3 131072).maycontain [7] = some true := by
  have hnc : Op.clear ∉ [Op.add [9]] := by
    intro hmem
    exact Op.noConfusion (List.mem_singleton.mp hmem)
  exact ⟨demoF_valid 0 0, hnc,
    C1_no_false_negatives (demoF 0 0) (demoF 3 131072) [7]
      [Op.add [5]] [Op.add [9]] (demoF_valid 0 0) hnc rfl⟩

/-- Claim C7: on a validly constructed filter, a set bit stays set
across any sequence of `add` and `maycontain` operations that contains
no `clear`: `add` only ORs bits in. -/
theorem C7_monotonic_bits (F F2 : BloomFilter) (ops : List Op)
    (hV : Valid F) (hnc : Op.clear ∉ ops) (h : runOps F ops = some F2)
    (w b : Nat) (hset : (F.bits.getD w 0).testBit b = true) :
    (F2.bits.getD w 0).testBit b = true :=
  runOps_mono hnc h w b hset

/-- Claim C7 at a concrete run: bit 17 of word 0 stays set across an
`add` and a `query`. -/
theorem C7_monotonic_bits_witness :
    Valid (demoF 1 131072) ∧ Op.clear ∉ [Op.add [3], Op.query [4]] ∧
    (((demoF 1 131072).bits).getD 0 0).testBit 17 = true ∧
    (((demoF 2 131072).bits).getD 0 0).testBit 17 = true := by
  have hnc : Op.clear ∉ [Op.add [3], Op.query [4]] := by
    intro hmem
    rcases List.mem_cons.mp hmem with he | hmem2
    · exact Op.noConfusion he
    · exact Op.noConfusion (List.mem_singleton.mp hmem2)
  exact ⟨demoF_valid 1 131072, hnc, by decide,
    C7_monotonic_bits (demoF 1 131072) (demoF 2 131072)
      [Op.add [3], Op.query [4]] (demoF_valid 1 131072) hnc rfl 0 17
      (by decide)⟩

/-- Claim C9: for a well-formed filter, pickling `(k, n, bits)` and
restoring recovers `m = len(bits) * 32`, the same `k`, `n` and `bits`,
regenerates exactly the original hash functions, and `maycontain`
answers identically on every item. -/
theorem C9_roundtrip (sha1 : List Nat → List Nat) (F : BloomFilter)
    (hW : WellFormed sha1 F) :
    (BloomFilter.setstate sha1 F.getstate).m = F.bits.length * 32 ∧
    (BloomFilter.setstate sha1 F.getstate).m = F.m ∧
    (BloomFilter.setstate sha1 F.getstate).k = F.k ∧
    (BloomFilter.setstate sha1 F.getstate).n = F.n ∧
    (BloomFilter.setstate sha1 F.getstate).bits = F.bits ∧
    (BloomFilter.setstate sha1 F.getstate).funcs = F.funcs ∧
    ∀ item, (BloomFilter.setstate sha1 F.getstate).maycontain item =
      F.maycontain item := by
  obtain ⟨hlen, hfuncs⟩ := hW
  have hfun2 : (BloomFilter.setstate sha1 F.getstate).funcs = F.funcs := by
    show (List.range F.k).map
        (fun i => makeHashFunc sha1 (F.bits.length * 32) i) = F.funcs
    rw [hlen, ← hfuncs]
  refine ⟨rfl, hlen, rfl, rfl, rfl, hfun2, ?_⟩
  intro item
  show mayLoop item F.bits (BloomFilter.setstate sha1 F.getstate).funcs =
    mayLoop item F.bits F.funcs
  rw [hfun2]

/-- Claim C9 at a concrete filter. -/
theorem C9_roundtrip_witness :
    WellFormed sha1demo
      { m := 32, k := 1, n := 1, bits := [131072],
        funcs := [makeHashFunc sha1demo 32 0] } ∧
    (BloomFilter.setstate sha1demo
      ({ m := 32, k := 1, n := 1, bits := [131072],
         funcs := [makeHashFunc sha1demo 32 0] } :
           BloomFilter).getstate).m = 32 := by
  have hW : WellFormed sha1demo
      { m := 32, k := 1, n := 1, bits := [131072],
        funcs := [makeHashFunc sha1demo 32 0] } := ⟨rfl, rfl⟩
  exact ⟨hW, (C9_roundtrip sha1demo _ hW).1⟩

/-- Claim C10: on a validly constructed filter, `add` and `maycontain`
never hit an out-of-bounds word (modelled: they return `some`) for any
item, and `clear` returns a filter that is again valid; moreover `add`
preserves validity, so whole op sequences stay error-free. -/
theorem C10_total (F : BloomFilter) (hV : Valid F) (item : List Nat) :
    (F.add item).isSome = true ∧
    (F.maycontain item).isSome = true ∧
    Valid F.clear ∧
    (∀ F2, F.add item = some F2 → Valid F2) := by
  obtain ⟨F2, ha⟩ := add_isSome hV item
  obtain ⟨b, hq⟩ := maycontain_isSome hV item
  refine ⟨by rw [ha]; rfl, by rw [hq]; rfl, clear_valid hV, ?_⟩
  intro F3 ha3
  exact runOps_valid hV (show runOps F [Op.add item] = some F3 by
    rw [runOps_cons_add, ha3]
    rfl)

/-- Claim C10 at a concrete filter and item. -/
theorem C10_total_witness :
    Valid (demoF 0 0) ∧ ((demoF 0 0).add [1]).isSome = true :=
  ⟨demoF_valid 0 0, (C10_total _ (demoF_valid 0 0) [1]).1⟩

theorem init_none_iff (sha1 : List Nat → List Nat) (m k : Int) :
    BloomFilter.init sha1 m k = none ↔
      m ≤ 0 ∨ k ≤ 0 ∨ m % 32 ≠ 0 := by
  unfold BloomFilter.init
  constructor
  · intro h
    by_contra hcon
    push_neg at hcon
    obtain ⟨h1, h2, h3⟩ := hcon
    rw [if_pos ⟨by omega, by omega, h3⟩] at h
    exact Option.noConfusion h
  · intro h
    rw [if_neg]
    intro hc
    obtain ⟨h1, h2, h3⟩ := hc
    rcases h with h | h | h <;> omega

/-- Claim C4: construction fails exactly when `m ≤ 0`, `k ≤ 0` or
`m % 32 ≠ 0`; in particular `m = 31`, `m = -32` and `k = 0` are
rejected, while `(32, 1)` yields a filter with one zeroed word and one
hash function with salt `0`. -/
theorem C4_constructor (sha1 : List Nat → List Nat) :
    (∀ m k : Int, BloomFilter.init sha1 m k = none ↔
      m ≤ 0 ∨ k ≤ 0 ∨ m % 32 ≠ 0) ∧
    BloomFilter.init sha1 31 1 = none ∧
    BloomFilter.init sha1 (-32) 1 = none ∧
    BloomFilter.init sha1 32 0 = none ∧
    BloomFilter.init sha1 32 1 =
      some { m := 32, k := 1, n := 0, bits := List.replicate 1 0,
             funcs := [makeHashFunc sha1 32 0] } := by
  refine ⟨init_none_iff sha1, ?_, ?_, ?_, ?_⟩
  · rw [init_none_iff]
    right; right
    decide
  · rw [init_none_iff]
    left
    decide
  · rw [init_none_iff]
    right; left
    decide
  · unfold BloomFilter.init
    rw [if_pos (by decide)]
    rfl

theorem fprate_base_bounds (F : BloomFilter) (hm : 0 < F.m) :
    0 ≤ 1 - Real.exp (-(F.k : ℝ) * (F.n : ℝ) / (F.m : ℝ)) ∧
    1 - Real.exp (-(F.k : ℝ) * (F.n : ℝ) / (F.m : ℝ)) < 1 := by
  constructor
  · rw [sub_nonneg, Real.exp_le_one_iff]
    apply div_nonpos_of_nonpos_of_nonneg
    · have hk0 : (0 : ℝ) ≤ (F.k : ℝ) := Nat.cast_nonneg _
      have hn0 : (0 : ℝ) ≤ (F.n : ℝ) := Nat.cast_nonneg _
      nlinarith
    · exact Nat.cast_nonneg _
  · have := Real.exp_pos (-(F.k : ℝ) * (F.n : ℝ) / (F.m : ℝ))
    linarith

/-- Claim C8: for a filter with `m > 0` and `k ≥ 1`,
`fprate = (1 - exp(-k*n/m))^k` lies in `[0, 1]` and is strictly
increasing in `n` for fixed `m` and `k`. -/
theorem C8_fprate (F : BloomFilter) (hm : 0 < F.m) (hk : 1 ≤ F.k) :
    0 ≤ F.fprate ∧ F.fprate ≤ 1 ∧
    ∀ G : BloomFilter, G.m = F.m → G.k = F.k → F.n < G.n →
      F.fprate < G.fprate := by
  obtain ⟨hF0, hF1⟩ := fprate_base_bounds F hm
  refine ⟨pow_nonneg hF0 _, pow_le_one₀ hF0 (le_of_lt hF1), ?_⟩
  intro G hGm hGk hGn
  have hGm0 : 0 < G.m := by omega
  obtain ⟨hG0, hG1⟩ := fprate_base_bounds G hGm0
  have hmR : (0 : ℝ) < (F.m : ℝ) := by exact_mod_cast hm
  have hkR : (0 : ℝ) < (F.k : ℝ) := by
    have : 0 < F.k := by omega
    exact_mod_cast this
  have hnR : (F.n : ℝ) < (G.n : ℝ) := by exact_mod_cast hGn
  have harg : -(F.k : ℝ) * (G.n : ℝ) / (F.m : ℝ) <
      -(F.k : ℝ) * (F.n : ℝ) / (F.m : ℝ) := by
    rw [div_lt_div_iff₀ hmR hmR]
    have hstep : (F.k : ℝ) * (F.n : ℝ) * (F.m : ℝ) <
        (F.k : ℝ) * (G.n : ℝ) * (F.m : ℝ) :=
      mul_lt_mul_of_pos_right (mul_lt_mul_of_pos_left hnR hkR) hmR
    nlinarith
  have hbase : 1 - Real.exp (-(F.k : ℝ) * (F.n : ℝ) / (F.m : ℝ)) <
      1 - Real.exp (-(F.k : ℝ) * (G.n : ℝ) / (F.m : ℝ)) :=
    sub_lt_sub_left (Real.exp_lt_exp.mpr harg) 1
  show (1 - Real.exp (-(F.k : ℝ) * (F.n : ℝ) / (F.m : ℝ))) ^ F.k <
    (1 - Real.exp (-(G.k : ℝ) * (G.n : ℝ) / (G.m : ℝ))) ^ G.k
  rw [hGk, hGm]
  exact pow_lt_pow_left₀ hbase hF0 (by omega)

/-- Claim C8 at a concrete filter. -/
theorem C8_fprate_witness :
    0 < (demoF 0 0).m ∧ 1 ≤ (demoF 0 0).k ∧
    (0 ≤ (demoF 0 0).fprate ∧ (demoF 0 0).fprate ≤ 1 ∧
      ∀ G : BloomFilter, G.m = (demoF 0 0).m → G.k = (demoF 0 0).k →
        (demoF 0 0).n < G.n → (demoF 0 0).fprate < G.fprate) :=
  ⟨by decide, by decide, C8_fprate (demoF 0 0) (by decide) (by decide)⟩

/-! ### The word-alignment step `(m + 31) & ~0x1F` -/

theorem ldiff31 (a : Nat) : Nat.ldiff a 31 = 32 * (a / 32) := by
  apply Nat.eq_of_testBit_eq
  intro i
  rw [Nat.testBit_ldiff]
  have h32 : 32 * (a / 32) = (a >>> 5) <<< 5 := by
    rw [Nat.shiftLeft_eq, Nat.shiftRight_eq_div_pow]
    norm_num [Nat.mul_comm]
  have h31 : (31 : Nat) = 2 ^ 5 - 1 := by norm_num
  rw [h32, Nat.testBit_shiftLeft, Nat.testBit_shiftRight, h31,
    Nat.testBit_two_pow_sub_one]
  by_cases h : i < 5
  · have h5 : ¬ (5 ≤ i) := by omega
    simp [h, h5]
  · have h5 : 5 ≤ i := by omega
    have hi : 5 + (i - 5) = i := by omega
    simp [h, h5, hi]

theorem int_land_neg32_ofNat (x : Nat) :
    Int.land ((x : Nat) : Int) (-32) = ((32 * (x / 32) : Nat) : Int) := by
  show ((Nat.ldiff x 31 : Nat) : Int) = _
  rw [ldiff31]

theorem int_land_neg32_negSucc (j : Nat) :
    Int.land (Int.negSucc j) (-32) = Int.negSucc (j ||| 31) := rfl

theorem land32_nonneg_case {a : Int} (h : 0 ≤ a) :
    Int.land a (-32) = ((32 * (a.toNat / 32) : Nat) : Int) := by
  obtain ⟨x, rfl⟩ := Int.eq_ofNat_of_zero_le h
  rw [int_land_neg32_ofNat]
  norm_num

theorem land_align_pos {m1 : Int} (h : 1 ≤ m1) :
    0 < Int.land (m1 + 31) (-32) ∧ Int.land (m1 + 31) (-32) % 32 = 0 := by
  have h0 : 0 ≤ m1 + 31 := by omega
  rw [land32_nonneg_case h0]
  constructor
  · exact_mod_cast (by omega : 0 < 32 * ((m1 + 31).toNat / 32))
  · have : ((32 * ((m1 + 31).toNat / 32) : Nat) : Int) =
        32 * (((m1 + 31).toNat / 32 : Nat) : Int) := by push_cast; ring
    rw [this]
    omega

theorem land_align_nonpos {m1 : Int} (h : m1 ≤ 0) :
    Int.land (m1 + 31) (-32) ≤ 0 := by
  rcases le_or_lt 0 (m1 + 31) with h0 | h0
  · rw [land32_nonneg_case h0]
    have hq : (m1 + 31).toNat / 32 = 0 := by omega
    rw [hq]
    norm_num
  · obtain ⟨j, hj⟩ : ∃ j : Nat, m1 + 31 = Int.negSucc j := by
      refine ⟨(-(m1 + 31)).toNat - 1, ?_⟩
      rw [Int.negSucc_eq]
      omega
    rw [hj, int_land_neg32_negSucc]
    exact le_of_lt (Int.negSucc_lt_zero _)

theorem optimalBloom_eq_of_pos (sha1 : List Nat → List Nat) {p : ℝ}
    (n : Int) (hp : 0 < p) :
    optimalBloom sha1 p n =
      BloomFilter.init sha1
        (Int.land (Int.ceil (-(n : ℝ) * Real.log p / (Real.log 2) ^ 2) + 31)
          (-32))
        (max (truncInt (Real.log 2 *
          ((Int.land
            (Int.ceil (-(n : ℝ) * Real.log p / (Real.log 2) ^ 2) + 31)
            (-32) : Int) : ℝ) / (n : ℝ))) 1) := by
  unfold optimalBloom nplog
  rw [if_pos hp]

theorem optimalBloom_eq_of_nonpos (sha1 : List Nat → List Nat) {p : ℝ}
    (n : Int) (hp : ¬ 0 < p) :
    optimalBloom sha1 p n = none := by
  unfold optimalBloom nplog
  rw [if_neg hp]

/-- Claim C5: for a target rate in `(0,1)` and a positive expected
count, `optimalBloom` succeeds and returns a filter whose `m` is
`ceil(-n * ln p / (ln 2)^2)` rounded up by `(m + 31) & ~0x1F` — a
positive multiple of 32 — and whose `k` is `max(floor(ln 2 * m / n), 1)
≥ 1`. -/
theorem C5_optimalBloom (sha1 : List Nat → List Nat) (p : ℝ) (n : Int)
    (hp0 : 0 < p) (hp1 : p < 1) (hn : 1 ≤ n) :
    ∃ F, optimalBloom sha1 p n = some F ∧
      (F.m : Int) =
        Int.land
          (Int.ceil (-(n : ℝ) * Real.log p / (Real.log 2) ^ 2) + 31)
          (-32) ∧
      0 < F.m ∧ F.m % 32 = 0 ∧
      (F.k : Int) = max (Int.floor (Real.log 2 * (F.m : ℝ) / (n : ℝ))) 1 ∧
      1 ≤ F.k := by
  have hlp : Real.log p < 0 := Real.log_neg hp0 hp1
  have hln2 : 0 < Real.log 2 := Real.log_pos (by norm_num)
  have hnR : (0 : ℝ) < (n : ℝ) := by
    exact_mod_cast (by omega : (0 : Int) < n)
  have hm0 : 0 < -(n : ℝ) * Real.log p / (Real.log 2) ^ 2 := by
    apply div_pos
    · nlinarith
    · exact pow_pos hln2 2
  have hm1 : 1 ≤ Int.ceil (-(n : ℝ) * Real.log p / (Real.log 2) ^ 2) := by
    have h0 : (0 : Int) <
        Int.ceil (-(n : ℝ) * Real.log p / (Real.log 2) ^ 2) :=
      Int.lt_ceil.mpr (by exact_mod_cast hm0)
    omega
  obtain ⟨hmpos, hmmod⟩ := land_align_pos hm1
  rw [optimalBloom_eq_of_pos sha1 n hp0]
  set mi : Int := Int.land
    (Int.ceil (-(n : ℝ) * Real.log p / (Real.log 2) ^ 2) + 31) (-32)
    with hmi
  have hmiR : (0 : ℝ) ≤ (mi : ℝ) := by exact_mod_cast le_of_lt hmpos
  have hkr0 : 0 ≤ Real.log 2 * (mi : ℝ) / (n : ℝ) :=
    div_nonneg (mul_nonneg (le_of_lt hln2) hmiR) (le_of_lt hnR)
  have htr : truncInt (Real.log 2 * (mi : ℝ) / (n : ℝ)) =
      Int.floor (Real.log 2 * (mi : ℝ) / (n : ℝ)) := by
    unfold truncInt
    rw [if_pos hkr0]
  set ki : Int := max (truncInt (Real.log 2 * (mi : ℝ) / (n : ℝ))) 1
    with hki
  have hk1 : 1 ≤ ki := le_max_right _ _
  have hcast : ((mi.toNat : Nat) : ℝ) = (mi : ℝ) := by
    have h := Int.toNat_of_nonneg (le_of_lt hmpos)
    exact_mod_cast congrArg (fun z : Int => (z : ℝ)) h
  unfold BloomFilter.init
  rw [if_pos ⟨hmpos, by omega, hmmod⟩]
  refine ⟨_, rfl, ?_, ?_, ?_, ?_, ?_⟩
  · show ((mi.toNat : Nat) : Int) = mi
    exact Int.toNat_of_nonneg (le_of_lt hmpos)
  · show 0 < mi.toNat
    omega
  · show mi.toNat % 32 = 0
    omega
  · show ((ki.toNat : Nat) : Int) =
      max (Int.floor (Real.log 2 * ((mi.toNat : Nat) : ℝ) / (n : ℝ))) 1
    rw [hcast, ← htr, ← hki]
    exact Int.toNat_of_nonneg (by omega)
  · show 1 ≤ ki.toNat
    omega

/-- Claim C5 at `p = 1/2`, `n = 1`. -/
theorem C5_optimalBloom_witness :
    (0 : ℝ) < 1 / 2 ∧ (1 : ℝ) / 2 < 1 ∧ (1 : Int) ≤ 1 ∧
    ∃ F, optimalBloom sha1demo (1 / 2) 1 = some F ∧
      (F.m : Int) =
        Int.land
          (Int.ceil (-((1 : Int) : ℝ) * Real.log (1 / 2) /
            (Real.log 2) ^ 2) + 31) (-32) ∧
      0 < F.m ∧ F.m % 32 = 0 ∧
      (F.k : Int) =
        max (Int.floor (Real.log 2 * (F.m : ℝ) / ((1 : Int) : ℝ))) 1 ∧
      1 ≤ F.k :=
  ⟨by norm_num, by norm_num, le_refl 1,
    C5_optimalBloom sha1demo (1 / 2) 1 (by norm_num) (by norm_num)
      (le_refl 1)⟩

/-- Claim C6, counterexample: with BOTH parameters out of the claimed
domain — rate `2 > 1` and count `-1 ≤ 0` — the two sign errors cancel:
the code computes `m = 32`, `k = 1` and returns a filter, where the
claim requires failure whenever either parameter is out of domain. -/
theorem C6_counterexample :
    (optimalBloom sha1demo 2 (-1)).isSome = true := by
  have hln2 : 0 < Real.log 2 := Real.log_pos (by norm_num)
  have hne : Real.log 2 ≠ 0 := ne_of_gt hln2
  have hlt1 : Real.log 2 < 1 := by
    have h := Real.log_two_lt_d9
    linarith
  have hgt : (1 : ℝ) / 2 < Real.log 2 := by
    have h := Real.log_two_gt_d9
    linarith
  rw [optimalBloom_eq_of_pos sha1demo (-1) (by norm_num)]
  have hm0eq : -(((-1) : Int) : ℝ) * Real.log 2 / Real.log 2 ^ 2 =
      1 / Real.log 2 := by
    push_cast
    field_simp
    ring
  have hceil2 :
      Int.ceil (-(((-1) : Int) : ℝ) * Real.log 2 / Real.log 2 ^ 2) = 2 := by
    rw [hm0eq, Int.ceil_eq_iff]
    constructor
    · push_cast
      rw [lt_div_iff₀ hln2]
      linarith
    · push_cast
      rw [div_le_iff₀ hln2]
      linarith
  rw [hceil2]
  have h33 : (2 + 31 : Int) = ((33 : Nat) : Int) := by norm_num
  have hland : Int.land (2 + 31 : Int) (-32) = 32 := by
    rw [h33, int_land_neg32_ofNat]
    norm_num
  rw [hland]
  have hkrneg : Real.log 2 * ((32 : Int) : ℝ) / (((-1) : Int) : ℝ) < 0 := by
    have he : Real.log 2 * ((32 : Int) : ℝ) / (((-1) : Int) : ℝ) =
        -(Real.log 2 * 32) := by
      push_cast
      ring
    rw [he]
    nlinarith
  have htrunc :
      truncInt (Real.log 2 * ((32 : Int) : ℝ) / (((-1) : Int) : ℝ)) ≤ 0 := by
    unfold truncInt
    rw [if_neg (not_le.mpr hkrneg), Int.ceil_le]
    exact_mod_cast le_of_lt hkrneg
  have hmax :
      max (truncInt (Real.log 2 * ((32 : Int) : ℝ) / (((-1) : Int) : ℝ)))
        1 = 1 := max_eq_right (by omega)
  rw [hmax]
  unfold BloomFilter.init
  rw [if_pos ⟨by norm_num, by norm_num, by decide⟩]
  rfl

/-- Claim C6 (amended): `optimalBloom` fails (returns no filter)
whenever the rate is `≤ 0`, or the count is `≤ 0` with rate `≤ 1`, or
the count is `≥ 0` with rate `≥ 1` — that is, on the whole claimed
out-of-domain set except the region of a negative count combined with a
rate `> 1`, where failure is not guaranteed (see the counterexample at
rate `2`, count `-1`). -/
theorem C6_optimalBloom_amended (sha1 : List Nat → List Nat) (p : ℝ)
    (n : Int)
    (h : p ≤ 0 ∨ (n ≤ 0 ∧ p ≤ 1) ∨ (0 ≤ n ∧ 1 ≤ p)) :
    optimalBloom sha1 p n = none := by
  by_cases hp0 : 0 < p
  · rw [optimalBloom_eq_of_pos sha1 n hp0, init_none_iff]
    left
    have hm0 : -(n : ℝ) * Real.log p / (Real.log 2) ^ 2 ≤ 0 := by
      apply div_nonpos_of_nonpos_of_nonneg
      · rcases h with hp | ⟨hn, hp⟩ | ⟨hn, hp⟩
        · linarith
        · have hlp : Real.log p ≤ 0 := Real.log_nonpos (le_of_lt hp0) hp
          have hnR : (n : ℝ) ≤ 0 := by exact_mod_cast hn
          nlinarith
        · have hlp : 0 ≤ Real.log p := Real.log_nonneg hp
          have hnR : (0 : ℝ) ≤ (n : ℝ) := by exact_mod_cast hn
          nlinarith
      · positivity
    have hceil :
        Int.ceil (-(n : ℝ) * Real.log p / (Real.log 2) ^ 2) ≤ 0 := by
      rw [Int.ceil_le]
      exact_mod_cast hm0
    exact land_align_nonpos hceil
  · exact optimalBloom_eq_of_nonpos sha1 n hp0

/-- Claim C6 (amended) at `p = -1`, `n = 5`, and at the boundary case
`p = 2`, `n = 0` the original amendment missed. -/
theorem C6_optimalBloom_amended_witness :
    (((-1 : ℝ) ≤ 0 ∨ ((5 : Int) ≤ 0 ∧ (-1 : ℝ) ≤ 1) ∨
        ((0 : Int) ≤ 5 ∧ (1 : ℝ) ≤ -1)) ∧
      optimalBloom sha1demo (-1) 5 = none) ∧
    (((2 : ℝ) ≤ 0 ∨ ((0 : Int) ≤ 0 ∧ (2 : ℝ) ≤ 1) ∨
        ((0 : Int) ≤ 0 ∧ (1 : ℝ) ≤ 2)) ∧
      optimalBloom sha1demo 2 0 = none) :=
  ⟨⟨Or.inl (by norm_num),
      C6_optimalBloom_amended sha1demo (-1) 5 (Or.inl (by norm_num))⟩,
    ⟨Or.inr (Or.inr ⟨le_refl 0, by norm_num⟩),
      C6_optimalBloom_amended sha1demo 2 0
        (Or.inr (Or.inr ⟨le_refl 0, by norm_num⟩))⟩⟩

/-- Claim C4 at a concrete digest: `m = 31` rejected, `(32, 1)`
accepted. -/
theorem C4_constructor_witness :
    BloomFilter.init sha1demo 31 1 = none ∧
    (BloomFilter.init sha1demo 32 1).isSome = true :=
  ⟨(C4_constructor sha1demo).2.1, by
    rw [(C4_constructor sha1demo).2.2.2.2]
    rfl⟩
